import Mathlib

/-!
Shallow embedding of the core logic of the `simple_webp_converter` repository:
the frame-sequence detector (`sequence-detector.ts`), the WebP conversion
settings (`converter.ts`), the per-image conversion loop of
`useImageConverter.ts`, and the luminance processor described by the design
document, together with proofs of the stated properties.

JavaScript strings are modelled as `List Char`, JS numbers appearing as array
indices, sizes and frame numbers as `Nat`, and JS float quality values as `ℚ`.
`Array.prototype.sort` (a stable sort whose output is determined by the
comparator when the comparator is a total preorder) is modelled by
`List.insertionSort`, which is stable.
-/

namespace WebpSpec

open scoped List

/-- A raw input file as the browser exposes it to `detectSequences`:
only `name` and `size` are read by the core logic. -/
structure FileObj where
  name : String
  size : Nat
deriving DecidableEq

/-- Characters accepted by `[-_]` in the `FRAME_PATTERNS` regexes. -/
def isSepChar (c : Char) : Bool :=
  c = '-' || c = '_'

/-- Characters matched by `.` in a JavaScript regex: everything except the
four line terminators. -/
def jsDotChar (c : Char) : Bool :=
  !(c = '\n' || c = '\r' || c = '\u2028' || c = '\u2029')

/-- `\d*`-style check: every character is an ASCII digit (`\d` in JS). -/
def allDigits (l : List Char) : Bool :=
  l.all Char.isDigit

/-- Value of `parseInt(digits, 10)` on a digit string. -/
def digitsToNat (l : List Char) : Nat :=
  l.foldl (fun acc c => 10 * acc + (c.toNat - 48)) 0

/-- `filename.replace(/\.[^/.]+$/, '')`: strip a trailing `.ext` whose
extension part is nonempty and contains neither `/` nor `.`. -/
def stripExt (s : List Char) : List Char :=
  let rev := s.reverse
  let ext := rev.takeWhile (fun c => c != '.')
  if ext.length < rev.length && !ext.isEmpty && !ext.contains '/' then
    (rev.drop (ext.length + 1)).reverse
  else s

/-- Backtracking matcher for `^(.+?)[-_]?(\d{2,})$` (the first entry of
`FRAME_PATTERNS`).  `pre` is the text consumed so far by the lazy group
`(.+?)`; at each split point the engine first tries to consume an optional
separator (`[-_]?` is greedy) followed by an all-digit remainder of length at
least two, and only if both continuations fail extends the lazy prefix by one
`.`-character. -/
def matchFrame1Go (pre : List Char) : List Char → Option (List Char × List Char)
  | [] => none
  | c :: rest =>
    if isSepChar c && allDigits rest && decide (2 ≤ rest.length) then
      some (pre, rest)
    else if allDigits (c :: rest) && decide (2 ≤ (c :: rest).length) then
      some (pre, c :: rest)
    else if jsDotChar c then
      matchFrame1Go (pre ++ [c]) rest
    else
      none

/-- Anchored match of `^(.+?)[-_]?(\d{2,})$` against a whole string. -/
def matchFrame1 : List Char → Option (List Char × List Char)
  | [] => none
  | c :: rest => if jsDotChar c then matchFrame1Go [c] rest else none

/-- Backtracking matcher for `^(.+?)[-_](\d+)$` (the second entry of
`FRAME_PATTERNS`): here the separator is mandatory and a single trailing
digit suffices. -/
def matchFrame2Go (pre : List Char) : List Char → Option (List Char × List Char)
  | [] => none
  | c :: rest =>
    if isSepChar c && allDigits rest && !rest.isEmpty then
      some (pre, rest)
    else if jsDotChar c then
      matchFrame2Go (pre ++ [c]) rest
    else
      none

/-- Anchored match of `^(.+?)[-_](\d+)$` against a whole string. -/
def matchFrame2 : List Char → Option (List Char × List Char)
  | [] => none
  | c :: rest => if jsDotChar c then matchFrame2Go [c] rest else none

/-- `extractFrameInfo` from `sequence-detector.ts`: strip the extension, try
the two frame patterns in order, and fall back to the whole stem with no
frame number. -/
def extractFrameInfo (filename : String) : String × Option Nat :=
  let stem := stripExt filename.toList
  match matchFrame1 stem with
  | some (b, d) => (String.mk b, some (digitsToNat d))
  | none =>
    match matchFrame2 stem with
    | some (b, d) => (String.mk b, some (digitsToNat d))
    | none => (String.mk stem, none)

/-- The converted output blob; only its byte size is observable to the core. -/
structure Blob where
  size : Nat
deriving DecidableEq

/-- Per-image conversion status (the `status` union of `ImageFile`). -/
inductive ImgStatus where
  | pending
  | converting
  | done
  | error
deriving DecidableEq

/-- The `ImageFile` record of `sequence-detector.ts`. -/
structure ImageFile where
  id : String
  file : FileObj
  name : String
  baseName : String
  frameNumber : Option Nat
  originalSize : Nat
  convertedSize : Option Nat
  convertedBlob : Option Blob
  status : ImgStatus
  error : Option String
deriving DecidableEq

/-- The `ImageSequence` record of `sequence-detector.ts`. -/
structure ImageSequence where
  id : String
  baseName : String
  images : List ImageFile
  isSequence : Bool
  missingFrames : List Nat
  totalOriginalSize : Nat
  totalConvertedSize : Nat
deriving DecidableEq

/-- `findMissingFrames` helper: the body of the nested loop, walking the
sorted frame list and pushing every integer from `prev + 1` up to (but
excluding) the next frame. -/
def missingBetween (prev : Nat) : List Nat → List Nat
  | [] => []
  | c :: rest => List.range' (prev + 1) (c - (prev + 1)) ++ missingBetween c rest

/-- `findMissingFrames` from `sequence-detector.ts`. -/
def findMissingFrames (frames : List Nat) : List Nat :=
  if frames.length < 2 then []
  else
    match frames.insertionSort (· ≤ ·) with
    | [] => []
    | s :: rest => missingBetween s rest

/-- The sort key `img.frameNumber || 0` used throughout the detector. -/
def frameKey (img : ImageFile) : Nat :=
  img.frameNumber.getD 0

/-- The comparator `(a, b) => (a.frameNumber || 0) - (b.frameNumber || 0)`
read as a `≤` relation. -/
def imgByFrame (a b : ImageFile) : Prop :=
  frameKey a ≤ frameKey b

instance : DecidableRel imgByFrame := fun _ _ => Nat.decLe _ _

/-- `[...images].sort((a, b) => (a.frameNumber || 0) - (b.frameNumber || 0))`. -/
def sortImages (imgs : List ImageFile) : List ImageFile :=
  imgs.insertionSort imgByFrame

/-- Recursive rendering of the grouping loop of `splitByGaps`: given the
current element `x` of the sorted list, it returns the sub-group containing
`x` together with the later sub-groups.  The loop starts a fresh group
exactly when the gap from one sorted element to the next exceeds `maxGap`. -/
def splitRun (maxGap : Nat) : ImageFile → List ImageFile → List ImageFile × List (List ImageFile)
  | x, [] => ([x], [])
  | x, y :: ys =>
    let r := splitRun maxGap y ys
    if frameKey y - frameKey x > maxGap then ([x], r.1 :: r.2)
    else (x :: r.1, r.2)

/-- `splitByGaps` from `sequence-detector.ts` (default threshold 5). -/
def splitByGaps (images : List ImageFile) (maxGap : Nat := 5) : List (List ImageFile) :=
  match sortImages images with
  | [] => []
  | x :: xs =>
    let r := splitRun maxGap x xs
    r.1 :: r.2

/-- Construction of one `ImageFile` in `detectSequences`; `now` stands for
the ambient `Date.now()` and `idx` is the position of the file in the input
batch. -/
def mkImageFile (now idx : Nat) (f : FileObj) : ImageFile :=
  let info := extractFrameInfo f.name
  { id := f.name ++ "-" ++ toString idx ++ "-" ++ toString now
    file := f
    name := f.name
    baseName := info.1
    frameNumber := info.2
    originalSize := f.size
    convertedSize := none
    convertedBlob := none
    status := .pending
    error := none }

/-- `files.map((file, index) => ...)` of `detectSequences`. -/
def mkImageFiles (now : Nat) (files : List FileObj) : List ImageFile :=
  files.enum.map fun p => mkImageFile now p.1 p.2

/-- `baseName.toLowerCase()`: character-wise lower-casing (ASCII-accurate),
written structurally over the character list so that concrete groupings
evaluate. -/
def jsToLower (s : String) : String :=
  String.mk (s.data.map Char.toLower)

/-- One step of the grouping loop: a JS `Map<string, ImageFile[]>` keyed by
the lower-cased base name, modelled as an association list in key insertion
order; a new image is appended to the entry of its key, or a fresh entry is
appended at the end. -/
def addToGroups : List (String × List ImageFile) → ImageFile → List (String × List ImageFile)
  | [], img => [(jsToLower img.baseName, [img])]
  | g :: gs, img =>
    if g.1 = jsToLower img.baseName then (g.1, g.2 ++ [img]) :: gs
    else g :: addToGroups gs img

/-- The grouping loop of `detectSequences`. -/
def groupsOf (imgs : List ImageFile) : List (String × List ImageFile) :=
  imgs.foldl addToGroups []

/-- The sequence record pushed for the `i`-th gap-free sub-group of a bucket
(`nParts` is the total number of sub-groups of the bucket, used for the
`" (Part N)"` suffix). -/
def seqFromGroup (now : Nat) (baseName : String) (nParts i : Nat)
    (group : List ImageFile) : ImageSequence :=
  { id := "seq-" ++ baseName ++ "-" ++ toString i ++ "-" ++ toString now
    baseName :=
      if 1 < nParts then baseName ++ " (Part " ++ toString (i + 1) ++ ")"
      else baseName
    images := sortImages group
    isSequence := true
    missingFrames := findMissingFrames (group.filterMap (·.frameNumber))
    totalOriginalSize := group.foldl (fun sum img => sum + img.originalSize) 0
    totalConvertedSize := 0 }

/-- The singleton record pushed for an image of a bucket that is not a
sequence. -/
def singleFromImage (img : ImageFile) : ImageSequence :=
  { id := "single-" ++ img.id
    baseName := img.baseName
    images := [img]
    isSequence := false
    missingFrames := []
    totalOriginalSize := img.originalSize
    totalConvertedSize := 0 }

/-- The body of the per-group loop of `detectSequences`: either split the
bucket into gap-free sub-groups and emit them as sequences, or emit each
member as its own singleton. -/
def processGroup (now : Nat) (baseName : String) (images : List ImageFile) : List ImageSequence :=
  if images.any (fun img => img.frameNumber.isSome) && decide (1 < images.length) then
    let subGroups := splitByGaps images
    subGroups.enum.map fun p => seqFromGroup now baseName subGroups.length p.1 p.2
  else
    images.map singleFromImage

/-- The final comparator of `detectSequences`, read as a `≤` relation:
sequences sort before singles, and ties fall back to
`a.baseName.localeCompare(b.baseName) <= 0`, where the environment's
locale-collation is abstracted as the boolean relation `lc`. -/
def seqLe (lc : String → String → Bool) (a b : ImageSequence) : Prop :=
  (if a.isSequence && !b.isSequence then true
   else if !a.isSequence && b.isSequence then false
   else lc a.baseName b.baseName) = true

instance (lc : String → String → Bool) : DecidableRel (seqLe lc) := fun _ _ =>
  instDecidableEqBool _ _

/-- `detectSequences` from `sequence-detector.ts`.  `lc` abstracts the
environment's `localeCompare` collation (as a boolean `≤` relation) and
`now` the ambient `Date.now()`. -/
def detectSequences (lc : String → String → Bool) (now : Nat) (files : List FileObj) :
    List ImageSequence :=
  ((groupsOf (mkImageFiles now files)).flatMap fun g => processGroup now g.1 g.2).insertionSort
    (seqLe lc)

/-- Lexicographic code-point comparison of character lists (`≤`). -/
def cpLeChars : List Char → List Char → Bool
  | [], _ => true
  | _ :: _, [] => false
  | x :: xs, y :: ys =>
    if x < y then true
    else if y < x then false
    else cpLeChars xs ys

/-- Concrete instantiation of the abstract locale collation: Unicode
code-point order on strings. -/
def cpLe (a b : String) : Bool :=
  cpLeChars a.data b.data

/-- Another concrete total preorder on strings (ordering by length), used to
exercise the ordering theorem at a collation with easily checked totality and
transitivity. -/
def lenLe (a b : String) : Bool :=
  decide (a.data.length ≤ b.data.length)

/-- `ConversionSettings` from `converter.ts`. -/
structure ConversionSettings where
  quality : Nat
  resize : Nat
  lossless : Bool
deriving DecidableEq

/-- `DEFAULT_SETTINGS` from `converter.ts`. -/
def DEFAULT_SETTINGS : ConversionSettings :=
  { quality := 90, resize := 100, lossless := false }

/-- The encoder quality computed by `convertToWebP`
(`settings.lossless ? 1 : settings.quality / 100`), the third argument of
`canvas.toBlob`. -/
def effectiveQuality (s : ConversionSettings) : ℚ :=
  if s.lossless then 1 else (s.quality : ℚ) / 100

/-- An RGBA pixel, 8 bits per channel, as stored in a decoded pixel buffer. -/
structure RGBA where
  r : Nat
  g : Nat
  b : Nat
  a : Nat
deriving DecidableEq

/-- `Math.round`, as applied when writing a scaled channel back to the
8-bit buffer. -/
def jsRound (x : ℚ) : ℤ :=
  ⌊x + 1 / 2⌋

/-- Clamp an integer channel value to `[0, 255]`. -/
def clamp255 (x : ℤ) : ℤ :=
  max 0 (min 255 x)

/-- Modelled from the spec: `extractLuminance` of the LuminanceProcessor
(§4.3), whose implementation is not under `src/`; per pixel
`L = 0.299·R + 0.587·G + 0.114·B` (BT.601), alpha ignored. -/
def extractLuminance (p : RGBA) : ℚ :=
  (299 / 1000 : ℚ) * p.r + (587 / 1000 : ℚ) * p.g + (114 / 1000 : ℚ) * p.b

/-- Modelled from the spec: the per-pixel body of `applyLuminance` (§4.3),
whose implementation is not under `src/`.  If the old luminance is below
`0.001` the luminance difference is added to each channel, otherwise each
channel is multiplied by `newL / oldL`; results are clamped to `[0, 255]`
and rounded to the 8-bit grid; alpha is never modified. -/
def applyLuminancePixel (p : RGBA) (oldL newL : ℚ) : RGBA :=
  if oldL < 1 / 1000 then
    let d := newL - oldL
    { p with
      r := (clamp255 (jsRound ((p.r : ℚ) + d))).toNat
      g := (clamp255 (jsRound ((p.g : ℚ) + d))).toNat
      b := (clamp255 (jsRound ((p.b : ℚ) + d))).toNat }
  else
    let scale := newL / oldL
    { p with
      r := (clamp255 (jsRound ((p.r : ℚ) * scale))).toNat
      g := (clamp255 (jsRound ((p.g : ℚ) * scale))).toNat
      b := (clamp255 (jsRound ((p.b : ℚ) * scale))).toNat }

/-- Modelled from the spec: `applyLuminance` over a whole buffer, one
luminance value per pixel. -/
def applyLuminance (pixels : List RGBA) (oldMap newMap : List ℚ) : List RGBA :=
  (pixels.zip (oldMap.zip newMap)).map fun pc => applyLuminancePixel pc.1 pc.2.1 pc.2.2

/-! The conversion loop of `useImageConverter.ts`.  The browser-side
`convertToWebP` call is an external capability; its outcome for each image is
abstracted as an oracle `conv : ImageFile → Except String Blob` (`Except.ok`
for a produced blob, `Except.error` for the caught exception's message).
Each `setSequences(prev => prev.map(...))` functional update is a pure map
over the current state. -/

/-- The state update marking image `tid` as `converting`. -/
def updConverting (tid : String) (img : ImageFile) : ImageFile :=
  if img.id = tid then { img with status := .converting } else img

/-- The state update marking image `tid` as `done` with its blob. -/
def updDone (tid : String) (blob : Blob) (img : ImageFile) : ImageFile :=
  if img.id = tid then
    { img with status := .done, convertedBlob := some blob, convertedSize := some blob.size }
  else img

/-- The state update marking image `tid` as `error` with its message. -/
def updError (tid : String) (msg : String) (img : ImageFile) : ImageFile :=
  if img.id = tid then { img with status := .error, error := some msg } else img

/-- Apply a per-image update to every image of every sequence in the state,
as the `setSequences(prev => prev.map(seq => ({...seq, images: seq.images.map(...)})))`
calls do. -/
def mapState (f : ImageFile → ImageFile) (st : List ImageSequence) : List ImageSequence :=
  st.map fun seq => { seq with images := seq.images.map f }

/-- The body of the conversion loop of `addFiles` for one image: mark it
converting, run the conversion, and record either the result or the caught
error. -/
def processImage (conv : ImageFile → Except String Blob) (st : List ImageSequence)
    (image : ImageFile) : List ImageSequence :=
  let st1 := mapState (updConverting image.id) st
  match conv image with
  | .ok blob => mapState (updDone image.id blob) st1
  | .error msg => mapState (updError image.id msg) st1

/-- The full conversion loop of `addFiles`: every image of every new
sequence, in order. -/
def processBatch (conv : ImageFile → Except String Blob) (newSeqs : List ImageSequence)
    (st : List ImageSequence) : List ImageSequence :=
  (newSeqs.flatMap (·.images)).foldl (processImage conv) st

/-- `addFiles` from `useImageConverter.ts`: detect sequences in the new
files, append them to the previous state, then convert each new image in
order. -/
def addFilesModel (conv : ImageFile → Except String Blob) (lc : String → String → Bool)
    (now : Nat) (prev : List ImageSequence) (files : List FileObj) : List ImageSequence :=
  let newSequences := detectSequences lc now files
  processBatch conv newSequences (prev ++ newSequences)

/-- All images of a state, in sequence order. -/
def flatImages (st : List ImageSequence) : List ImageFile :=
  st.flatMap (·.images)

/-- The record currently stored for the image with id `tid`. -/
def findImage (tid : String) (st : List ImageSequence) : Option ImageFile :=
  (flatImages st).find? fun img => img.id = tid

/-- A sample conversion oracle used to exercise the conversion loop on
concrete inputs: conversion fails (as an undecodable input would) exactly on
the file named `bad.png`. -/
def convOracle : ImageFile → Except String Blob := fun i =>
  if i.name = "bad.png" then .error "Failed to load image" else .ok ⟨10⟩

/-- The missing-frames list exactly as §4.2 step 6 of the design document
words it: sort the frame numbers ascending and, for every adjacent pair
`(prev, curr)`, emit every integer of the open interval `(prev, curr)` in
ascending order. -/
def specMissingFrames (frames : List Nat) : List Nat :=
  let sorted := frames.insertionSort (· ≤ ·)
  (sorted.zip sorted.tail).flatMap fun p => List.range' (p.1 + 1) (p.2 - (p.1 + 1))

/-! ## Theorems -/

/-- C8: with `lossless = true` the quality parameter handed to the encoder is
always `1.0`, whatever the `quality` setting is, so two settings differing
only in `quality` lead to the same effective encoder quality; with
`lossless = false` the effective quality is `quality / 100`. -/
theorem lossless_ignores_quality :
    (∀ s1 s2 : ConversionSettings, s1.lossless = true → s2.lossless = true →
      s1.resize = s2.resize →
      effectiveQuality s1 = 1 ∧ effectiveQuality s2 = 1 ∧
        effectiveQuality s1 = effectiveQuality s2) ∧
    (∀ s : ConversionSettings, s.lossless = false →
      effectiveQuality s = (s.quality : ℚ) / 100) := by
  constructor
  · intro s1 s2 h1 h2 _
    simp [effectiveQuality, h1, h2]
  · intro s h
    simp [effectiveQuality, h]

/-- Witness for C8 at concrete settings (`quality` 10 vs 90, both lossless,
and a lossy setting of quality 55). -/
theorem lossless_ignores_quality_witness :
    (effectiveQuality ⟨10, 100, true⟩ = 1 ∧ effectiveQuality ⟨90, 100, true⟩ = 1 ∧
      effectiveQuality ⟨10, 100, true⟩ = effectiveQuality ⟨90, 100, true⟩) ∧
    effectiveQuality ⟨55, 100, false⟩ = (55 : ℚ) / 100 :=
  ⟨lossless_ignores_quality.1 ⟨10, 100, true⟩ ⟨90, 100, true⟩ rfl rfl rfl,
   lossless_ignores_quality.2 ⟨55, 100, false⟩ rfl⟩

theorem jsRound_natCast (n : ℕ) : jsRound (n : ℚ) = n := by
  unfold jsRound
  rw [Int.floor_eq_iff]
  constructor
  · push_cast
    linarith
  · push_cast
    linarith

theorem clamp255_of_le (n : ℤ) (h0 : 0 ≤ n) (h255 : n ≤ 255) : clamp255 n = n := by
  unfold clamp255
  omega

theorem applyLuminancePixel_identity (p : RGBA) (l : ℚ)
    (hr : p.r ≤ 255) (hg : p.g ≤ 255) (hb : p.b ≤ 255) (hl : 1 / 1000 ≤ l) :
    applyLuminancePixel p l l = p := by
  have hne : l ≠ 0 := by positivity
  have hnlt : ¬l < 1 / 1000 := not_lt.2 hl
  obtain ⟨r, g, b, a⟩ := p
  simp only [applyLuminancePixel, hnlt, if_false, div_self hne, mul_one]
  simp only [jsRound_natCast]
  rw [clamp255_of_le _ (by positivity) (by exact_mod_cast hr),
    clamp255_of_le _ (by positivity) (by exact_mod_cast hg),
    clamp255_of_le _ (by positivity) (by exact_mod_cast hb)]
  simp

/-- C2: for a buffer whose pixels all have extracted luminance at least
`0.001`, `applyLuminance` with `newMap = oldMap = extractLuminance` of the
buffer reproduces every original R, G, B value exactly (hence certainly
within ±1 per channel), so the RGB ratios of every pixel are preserved. -/
theorem applyLuminance_identity_roundtrip (pixels : List RGBA)
    (hch : ∀ p ∈ pixels, p.r ≤ 255 ∧ p.g ≤ 255 ∧ p.b ≤ 255)
    (hlum : ∀ p ∈ pixels, 1 / 1000 ≤ extractLuminance p) :
    applyLuminance pixels (pixels.map extractLuminance) (pixels.map extractLuminance) =
      pixels := by
  induction pixels with
  | nil => rfl
  | cons p ps ih =>
    have hp := hch p (by simp)
    simp only [applyLuminance, List.map_cons, List.zip_cons_cons, List.map_cons] at ih ⊢
    rw [applyLuminancePixel_identity p _ hp.1 hp.2.1 hp.2.2 (hlum p (by simp))]
    have := ih (fun q hq => hch q (by simp [hq])) (fun q hq => hlum q (by simp [hq]))
    simpa [applyLuminance] using this

/-- Witness for C2 at a concrete two-pixel buffer. -/
theorem applyLuminance_identity_roundtrip_witness :
    applyLuminance [⟨200, 100, 50, 255⟩, ⟨10, 20, 30, 0⟩]
        ([⟨200, 100, 50, 255⟩, ⟨10, 20, 30, 0⟩].map extractLuminance)
        ([⟨200, 100, 50, 255⟩, ⟨10, 20, 30, 0⟩].map extractLuminance) =
      [⟨200, 100, 50, 255⟩, ⟨10, 20, 30, 0⟩] :=
  applyLuminance_identity_roundtrip _ (by decide) (by norm_num [extractLuminance])

theorem allDigits_append_not (xs ys : List Char) {c : Char} (h : c.isDigit = false) :
    allDigits (xs ++ c :: ys) = false := by
  simp [allDigits, List.all_append, h]

theorem sep_not_digit {c : Char} (h : isSepChar c = true) : c.isDigit = false := by
  simp only [isSepChar, Bool.or_eq_true, decide_eq_true_eq] at h
  rcases h with rfl | rfl <;> decide

theorem dot_of_digit {c : Char} (h : c.isDigit = true) : jsDotChar c = true := by
  have h1 : c ≠ '\n' := fun e => absurd (e ▸ h) (by decide)
  have h2 : c ≠ '\r' := fun e => absurd (e ▸ h) (by decide)
  have h3 : c ≠ '\u2028' := fun e => absurd (e ▸ h) (by decide)
  have h4 : c ≠ '\u2029' := fun e => absurd (e ▸ h) (by decide)
  simp [jsDotChar, h1, h2, h3, h4]

theorem dot_of_sep {c : Char} (h : isSepChar c = true) : jsDotChar c = true := by
  simp only [isSepChar, Bool.or_eq_true, decide_eq_true_eq] at h
  rcases h with rfl | rfl <;> decide

theorem matchFrame1Go_through {N : List Char} (hN : allDigits N = true) (hlen : 2 ≤ N.length) :
    ∀ remaining pre : List Char, (∀ c ∈ remaining, jsDotChar c = true) →
      matchFrame1Go pre (remaining ++ '_' :: N) = some (pre ++ remaining, N) := by
  intro remaining
  induction remaining with
  | nil =>
    intro pre _
    simp [matchFrame1Go, isSepChar, hN, hlen]
  | cons c cs ih =>
    intro pre hdot
    have hcd : jsDotChar c = true := hdot c (by simp)
    have hnd1 : allDigits (cs ++ '_' :: N) = false := allDigits_append_not cs N (by decide)
    have hnd2 : allDigits (c :: (cs ++ '_' :: N)) = false := by
      simpa using allDigits_append_not (c :: cs) N (c := '_') (by decide)
    rw [List.cons_append, matchFrame1Go]
    simp only [hnd1, hnd2, hcd, Bool.and_false, Bool.false_and, Bool.and_true, if_false,
      if_true, Bool.false_eq_true]
    rw [ih (pre ++ [c]) fun x hx => hdot x (by simp [hx])]
    simp

theorem matchFrame1_base_sep_digits {base N : List Char} (hb : base ≠ [])
    (hdot : ∀ c ∈ base, jsDotChar c = true) (hN : allDigits N = true) (hlen : 2 ≤ N.length) :
    matchFrame1 (base ++ '_' :: N) = some (base, N) := by
  cases base with
  | nil => exact absurd rfl hb
  | cons c cs =>
    have hcd := hdot c (by simp)
    rw [List.cons_append, matchFrame1, if_pos hcd,
      matchFrame1Go_through hN hlen cs [c] fun x hx => hdot x (by simp [hx])]
    simp

theorem stripExt_strips (stem ext : List Char) (hne : ext ≠ []) (hdot : '.' ∉ ext)
    (hsl : '/' ∉ ext) : stripExt (stem ++ '.' :: ext) = stem := by
  have hrev : (stem ++ '.' :: ext).reverse = (ext.reverse ++ ['.']) ++ stem.reverse := by
    simp
  have htake :
      (((ext.reverse ++ ['.']) ++ stem.reverse).takeWhile fun c => c != '.') = ext.reverse := by
    rw [List.append_assoc, List.takeWhile_append_of_pos ?hpos]
    · simp
    case hpos =>
      intro a ha
      have hmem : a ∈ ext := List.mem_reverse.1 ha
      simpa using fun (e : a = '.') => hdot (e ▸ hmem)
  simp only [stripExt, hrev, htake]
  rw [if_pos ?hcond]
  · rw [show ext.reverse.length + 1 = (ext.reverse ++ ['.']).length by simp,
      List.drop_left, List.reverse_reverse]
  case hcond =>
    simp only [Bool.and_eq_true, decide_eq_true_eq, Bool.not_eq_true']
    refine ⟨⟨by simp, ?_⟩, ?_⟩
    · simpa [List.isEmpty_iff] using hne
    · simp only [List.contains_eq_any_beq, List.any_eq_false]
      intro a ha
      have hmem : a ∈ ext := List.mem_reverse.1 ha
      simpa using fun (e : '/' = a) => hsl (e ▸ hmem)

theorem matchFrame1Go_none_single {sep d : Char} (hsep : isSepChar sep = true)
    (hd : d.isDigit = true) :
    ∀ remaining pre : List Char, (∀ c ∈ remaining, jsDotChar c = true) →
      matchFrame1Go pre (remaining ++ sep :: [d]) = none := by
  intro remaining
  induction remaining with
  | nil =>
    intro pre _
    have hds : jsDotChar sep = true := dot_of_sep hsep
    have hdd : jsDotChar d = true := dot_of_digit hd
    have hnds : allDigits (sep :: [d]) = false := by
      simpa using allDigits_append_not [] [d] (sep_not_digit hsep)
    simp [matchFrame1Go, hds, hdd, hnds]
  | cons c cs ih =>
    intro pre hdot
    have hcd : jsDotChar c = true := hdot c (by simp)
    have hnd1 : allDigits (cs ++ sep :: [d]) = false :=
      allDigits_append_not cs [d] (sep_not_digit hsep)
    have hnd2 : allDigits (c :: (cs ++ sep :: [d])) = false := by
      simpa using allDigits_append_not (c :: cs) [d] (sep_not_digit hsep)
    rw [List.cons_append, matchFrame1Go]
    simp only [hnd1, hnd2, hcd, Bool.and_false, Bool.false_and, if_false, if_true,
      Bool.false_eq_true]
    exact ih (pre ++ [c]) fun x hx => hdot x (by simp [hx])

theorem matchFrame1_none_single {base : List Char} {sep d : Char} (hb : base ≠ [])
    (hdot : ∀ c ∈ base, jsDotChar c = true) (hsep : isSepChar sep = true)
    (hd : d.isDigit = true) : matchFrame1 (base ++ sep :: [d]) = none := by
  cases base with
  | nil => exact absurd rfl hb
  | cons c cs =>
    have hcd := hdot c (by simp)
    rw [List.cons_append, matchFrame1, if_pos hcd]
    exact matchFrame1Go_none_single hsep hd cs [c] fun x hx => hdot x (by simp [hx])

theorem matchFrame2Go_through {sep d : Char} (hsep : isSepChar sep = true)
    (hd : d.isDigit = true) :
    ∀ remaining pre : List Char, (∀ c ∈ remaining, jsDotChar c = true) →
      matchFrame2Go pre (remaining ++ sep :: [d]) = some (pre ++ remaining, [d]) := by
  intro remaining
  induction remaining with
  | nil =>
    intro pre _
    simp [matchFrame2Go, hsep, allDigits, hd]
  | cons c cs ih =>
    intro pre hdot
    have hcd : jsDotChar c = true := hdot c (by simp)
    have hnd1 : allDigits (cs ++ sep :: [d]) = false :=
      allDigits_append_not cs [d] (sep_not_digit hsep)
    rw [List.cons_append, matchFrame2Go]
    simp only [hnd1, hcd, Bool.and_false, Bool.false_and, if_false, if_true,
      Bool.false_eq_true]
    rw [ih (pre ++ [c]) fun x hx => hdot x (by simp [hx])]
    simp

theorem matchFrame2_base_sep_digit {base : List Char} {sep d : Char} (hb : base ≠ [])
    (hdot : ∀ c ∈ base, jsDotChar c = true) (hsep : isSepChar sep = true)
    (hd : d.isDigit = true) : matchFrame2 (base ++ sep :: [d]) = some (base, [d]) := by
  cases base with
  | nil => exact absurd rfl hb
  | cons c cs =>
    have hcd := hdot c (by simp)
    rw [List.cons_append, matchFrame2, if_pos hcd,
      matchFrame2Go_through hsep hd cs [c] fun x hx => hdot x (by simp [hx])]
    simp

/-- C4: behaviour of `extractFrameInfo` on the three filename shapes the
claim describes.  (1) `<base>_<N>.<ext>` with `N` a digit string of length at
least two parses to `base` with the decimal value of `N` (leading zeros are
insignificant); (2) a single digit after a mandatory `-` or `_` separator
parses to that digit's value; (3) when neither frame pattern matches the
extension-stripped stem, the stem itself is returned with no frame number.
Well-formedness of the shape is assumed: nonempty base without line
terminators, and a nonempty extension free of `.` and `/`. -/
theorem extractFrameInfo_spec :
    (∀ base N ext : List Char, base ≠ [] → (∀ c ∈ base, jsDotChar c = true) →
      allDigits N = true → 2 ≤ N.length → ext ≠ [] → '.' ∉ ext → '/' ∉ ext →
      extractFrameInfo (String.mk (base ++ '_' :: (N ++ '.' :: ext))) =
        (String.mk base, some (digitsToNat N))) ∧
    (∀ base ext : List Char, ∀ sep d : Char, base ≠ [] →
      (∀ c ∈ base, jsDotChar c = true) → isSepChar sep = true → d.isDigit = true →
      ext ≠ [] → '.' ∉ ext → '/' ∉ ext →
      extractFrameInfo (String.mk (base ++ sep :: ([d] ++ '.' :: ext))) =
        (String.mk base, some (digitsToNat [d]))) ∧
    (∀ filename : String, matchFrame1 (stripExt filename.toList) = none →
      matchFrame2 (stripExt filename.toList) = none →
      extractFrameInfo filename = (String.mk (stripExt filename.toList), none)) := by
  refine ⟨?_, ?_, ?_⟩
  · intro base N ext hb hdot hN hlen hene hedot hesl
    have hstem : stripExt (String.mk (base ++ '_' :: (N ++ '.' :: ext))).toList =
        base ++ '_' :: N := by
      show stripExt (base ++ '_' :: (N ++ '.' :: ext)) = base ++ '_' :: N
      rw [show base ++ '_' :: (N ++ '.' :: ext) = (base ++ '_' :: N) ++ '.' :: ext by simp]
      exact stripExt_strips _ _ hene hedot hesl
    simp only [extractFrameInfo, hstem,
      matchFrame1_base_sep_digits hb hdot hN hlen]
  · intro base ext sep d hb hdot hsep hd hene hedot hesl
    have hstem : stripExt (String.mk (base ++ sep :: ([d] ++ '.' :: ext))).toList =
        base ++ sep :: [d] := by
      show stripExt (base ++ sep :: ([d] ++ '.' :: ext)) = base ++ sep :: [d]
      rw [show base ++ sep :: ([d] ++ '.' :: ext) = (base ++ sep :: [d]) ++ '.' :: ext by simp]
      exact stripExt_strips _ _ hene hedot hesl
    simp only [extractFrameInfo, hstem, matchFrame1_none_single hb hdot hsep hd,
      matchFrame2_base_sep_digit hb hdot hsep hd]
  · intro filename h1 h2
    simp only [extractFrameInfo, h1, h2]

/-- Witness for C4: `"shot_0007.png"` parses to `("shot", 7)`,
`"shot_1.png"` to `("shot", 1)`, and `"photo.png"` (no numeric suffix) to
`("photo", absent)`. -/
theorem extractFrameInfo_spec_witness :
    extractFrameInfo "shot_0007.png" = ("shot", some 7) ∧
    extractFrameInfo "shot_1.png" = ("shot", some 1) ∧
    extractFrameInfo "photo.png" = ("photo", none) := by
  refine ⟨?_, ?_, ?_⟩
  · have h := extractFrameInfo_spec.1 ['s', 'h', 'o', 't'] ['0', '0', '0', '7']
      ['p', 'n', 'g'] (by decide) (by decide) (by decide) (by decide) (by decide)
      (by decide) (by decide)
    simpa using h
  · have h := extractFrameInfo_spec.2.1 ['s', 'h', 'o', 't'] ['p', 'n', 'g'] '_' '1'
      (by decide) (by decide) (by decide) (by decide) (by decide) (by decide) (by decide)
    simpa using h
  · have h := extractFrameInfo_spec.2.2 "photo.png" (by decide) (by decide)
    simpa using h

theorem missingBetween_eq (s : Nat) (rest : List Nat) :
    missingBetween s rest =
      ((s :: rest).zip rest).flatMap fun p => List.range' (p.1 + 1) (p.2 - (p.1 + 1)) := by
  induction rest generalizing s with
  | nil => rfl
  | cons c rs ih => simp [missingBetween, ih, List.zip_cons_cons]

theorem findMissingFrames_eq_spec (frames : List Nat) :
    findMissingFrames frames = specMissingFrames frames := by
  by_cases h : frames.length < 2
  · rw [findMissingFrames, if_pos h]
    have hlen : (frames.insertionSort (· ≤ ·)).length < 2 := by
      simpa using h
    unfold specMissingFrames
    cases hs : frames.insertionSort (· ≤ ·) with
    | nil => simp
    | cons a l =>
      rw [hs] at hlen
      cases l with
      | nil => simp
      | cons b m =>
        simp only [List.length_cons] at hlen
        omega
  · rw [findMissingFrames, if_neg h]
    unfold specMissingFrames
    cases hs : frames.insertionSort (· ≤ ·) with
    | nil => simp
    | cons s rest => simp [missingBetween_eq]

theorem specMissingFrames_perm {l1 l2 : List Nat} (h : l1.Perm l2) :
    specMissingFrames l1 = specMissingFrames l2 := by
  unfold specMissingFrames
  have hsorteq : l1.insertionSort (· ≤ ·) = l2.insertionSort (· ≤ ·) :=
    List.eq_of_perm_of_sorted
      ((List.perm_insertionSort _ _).trans (h.trans (List.perm_insertionSort _ _).symm))
      (List.sorted_insertionSort _ _) (List.sorted_insertionSort _ _)
  rw [hsorteq]

theorem specMissingFrames_short {l : List Nat} (h : l.length ≤ 1) :
    specMissingFrames l = [] := by
  have hlen : (l.insertionSort (· ≤ ·)).length ≤ 1 := by simpa using h
  unfold specMissingFrames
  cases hs : l.insertionSort (· ≤ ·) with
  | nil => simp
  | cons a m =>
    rw [hs] at hlen
    cases m with
    | nil => simp
    | cons b k => simp at hlen

theorem splitRun_spec (maxGap : Nat) (xs : List ImageFile) : ∀ x : ImageFile,
    (splitRun maxGap x xs).1 ++ (splitRun maxGap x xs).2.flatten = x :: xs ∧
    (∃ t, (splitRun maxGap x xs).1 = x :: t) ∧
    (∀ g ∈ (splitRun maxGap x xs).1 :: (splitRun maxGap x xs).2, g ≠ []) ∧
    (∀ g ∈ (splitRun maxGap x xs).1 :: (splitRun maxGap x xs).2,
      List.Chain' (fun a b => frameKey b - frameKey a ≤ maxGap) g) ∧
    List.Chain' (fun g h => ∀ u ∈ g.getLast?, ∀ v ∈ h.head?, maxGap < frameKey v - frameKey u)
      ((splitRun maxGap x xs).1 :: (splitRun maxGap x xs).2) := by
  induction xs with
  | nil =>
    intro x
    refine ⟨rfl, ⟨[], rfl⟩, ?_, ?_, ?_⟩ <;> simp [splitRun]
  | cons y ys ih =>
    intro x
    obtain ⟨ihflat, ⟨t, iht⟩, ihne, ihchain, ihgap⟩ := ih y
    by_cases hgap : frameKey y - frameKey x > maxGap
    · rw [show splitRun maxGap x (y :: ys) =
        ([x], (splitRun maxGap y ys).1 :: (splitRun maxGap y ys).2) by
          rw [splitRun]; simp [hgap]]
      refine ⟨by simpa using ihflat, ⟨[], rfl⟩, ?_, ?_, ?_⟩
      · intro g hg
        rcases List.mem_cons.1 hg with rfl | hg
        · simp
        · exact ihne g hg
      · intro g hg
        rcases List.mem_cons.1 hg with rfl | hg
        · simp
        · exact ihchain g hg
      · refine List.chain'_cons'.2 ⟨?_, ihgap⟩
        intro h hh u hu v hv
        rw [show ([x] : List ImageFile).getLast? = some x from rfl] at hu
        simp only [Option.mem_def, Option.some.injEq] at hu
        subst hu
        have hh' : (splitRun maxGap y ys).1 = h := by
          simpa using hh
        subst hh'
        rw [iht] at hv
        simp only [List.head?_cons, Option.mem_def, Option.some.injEq] at hv
        subst hv
        exact hgap
    · rw [show splitRun maxGap x (y :: ys) =
        (x :: (splitRun maxGap y ys).1, (splitRun maxGap y ys).2) by
          rw [splitRun]; simp [hgap]]
      push_neg at hgap
      refine ⟨by simpa using ihflat, ⟨(splitRun maxGap y ys).1, rfl⟩, ?_, ?_, ?_⟩
      · intro g hg
        rcases List.mem_cons.1 hg with rfl | hg
        · simp
        · exact ihne g (by simp [hg])
      · intro g hg
        rcases List.mem_cons.1 hg with rfl | hg
        · rw [iht]
          refine List.chain'_cons.2 ⟨hgap, ?_⟩
          have := ihchain (splitRun maxGap y ys).1 (by simp)
          rwa [iht] at this
        · exact ihchain g (by simp [hg])
      · have hlast : (x :: (splitRun maxGap y ys).1).getLast? =
            ((splitRun maxGap y ys).1).getLast? := by
          rw [iht]
          exact List.getLast?_cons_cons
        cases hsp : (splitRun maxGap y ys).2 with
        | nil => simp
        | cons g2 gs =>
          refine List.chain'_cons'.2 ⟨?_, ?_⟩
          · intro h hh u hu v hv
            rw [hsp] at ihgap
            have := (List.chain'_cons'.1 ihgap).1
            refine this h ?_ u ?_ v hv
            · simpa using hh
            · rwa [hlast] at hu
          · have := (List.chain'_cons'.1 ihgap).2
            rwa [hsp] at this

theorem splitByGaps_flatten (imgs : List ImageFile) (maxGap : Nat) :
    (splitByGaps imgs maxGap).flatten = sortImages imgs := by
  unfold splitByGaps
  cases hs : sortImages imgs with
  | nil => rfl
  | cons x xs =>
    simpa using (splitRun_spec maxGap xs x).1

theorem splitByGaps_ne_nil (imgs : List ImageFile) (maxGap : Nat) :
    ∀ g ∈ splitByGaps imgs maxGap, g ≠ [] := by
  unfold splitByGaps
  cases hs : sortImages imgs with
  | nil => simp
  | cons x xs => exact (splitRun_spec maxGap xs x).2.2.1

theorem mem_of_mem_splitByGaps {imgs : List ImageFile} {maxGap : Nat} {g : List ImageFile}
    (hg : g ∈ splitByGaps imgs maxGap) {x : ImageFile} (hx : x ∈ g) : x ∈ imgs := by
  have hflat : x ∈ (splitByGaps imgs maxGap).flatten :=
    List.mem_flatten.2 ⟨g, hg, hx⟩
  rw [splitByGaps_flatten] at hflat
  exact (List.mem_insertionSort _).1 hflat

theorem snd_mem_of_mem_enum {α : Type _} {l : List α} {i : Nat} {x : α}
    (h : (i, x) ∈ l.enum) : x ∈ l := by
  have := List.mem_map_of_mem Prod.snd h
  rwa [List.enum_eq_enumFrom, List.enumFrom_map_snd] at this

theorem processGroup_mem_cases {now : Nat} {k : String} {imgs : List ImageFile}
    {seq : ImageSequence} (h : seq ∈ processGroup now k imgs) :
    (∃ i group, (i, group) ∈ (splitByGaps imgs).enum ∧
      seq = seqFromGroup now k (splitByGaps imgs).length i group) ∨
    ∃ img ∈ imgs, seq = singleFromImage img := by
  unfold processGroup at h
  by_cases hc : (imgs.any (fun img => img.frameNumber.isSome) && decide (1 < imgs.length)) = true
  · rw [if_pos hc] at h
    obtain ⟨p, hp, hpe⟩ := List.mem_map.1 h
    exact Or.inl ⟨p.1, p.2, hp, hpe.symm⟩
  · rw [if_neg hc] at h
    obtain ⟨img, hi, hie⟩ := List.mem_map.1 h
    exact Or.inr ⟨img, hi, hie.symm⟩

theorem mem_detectSequences {lc : String → String → Bool} {now : Nat} {files : List FileObj}
    {seq : ImageSequence} (h : seq ∈ detectSequences lc now files) :
    ∃ g, g ∈ groupsOf (mkImageFiles now files) ∧ seq ∈ processGroup now g.1 g.2 := by
  unfold detectSequences at h
  exact List.mem_flatMap.1 ((List.mem_insertionSort _).1 h)

/-- C6: the gap-splitting of a bucket.  In the sorted-by-frame order (members
without a frame number counting as frame 0), the sub-groups concatenate back
to the sorted list, every adjacent pair inside a sub-group has gap at most
`maxGap`, and the gap from the last member of a sub-group to the first member
of the next sub-group always exceeds `maxGap` — so a new sub-group starts
exactly when a gap exceeds the threshold.  At the default threshold 5, a gap
of exactly 5 does not split (`a_1`/`a_6` stay one sequence) and a gap of 6
does (`a_1`/`a_7` split in two). -/
theorem splitByGaps_gap_threshold :
    (∀ (imgs : List ImageFile) (maxGap : Nat),
      (splitByGaps imgs maxGap).flatten = sortImages imgs ∧
      (∀ g ∈ splitByGaps imgs maxGap, g ≠ []) ∧
      (∀ g ∈ splitByGaps imgs maxGap,
        List.Chain' (fun a b => frameKey b - frameKey a ≤ maxGap) g) ∧
      List.Chain' (fun g h => ∀ u ∈ g.getLast?, ∀ v ∈ h.head?, maxGap < frameKey v - frameKey u)
        (splitByGaps imgs maxGap)) ∧
    (detectSequences cpLe 0 [⟨"a_1.png", 1⟩, ⟨"a_6.png", 1⟩]).length = 1 ∧
    (detectSequences cpLe 0 [⟨"a_1.png", 1⟩, ⟨"a_7.png", 1⟩]).length = 2 := by
  refine ⟨?_, by decide, by decide⟩
  intro imgs maxGap
  refine ⟨splitByGaps_flatten imgs maxGap, splitByGaps_ne_nil imgs maxGap, ?_, ?_⟩
  · unfold splitByGaps
    cases hs : sortImages imgs with
    | nil => simp
    | cons x xs => exact (splitRun_spec maxGap xs x).2.2.2.1
  · unfold splitByGaps
    cases hs : sortImages imgs with
    | nil => simp
    | cons x xs => exact (splitRun_spec maxGap xs x).2.2.2.2

/-- Witness for C6: concrete sub-group membership with its in-group chain
property, and the exact behaviour at gaps 5 and 6. -/
theorem splitByGaps_gap_threshold_witness :
    [mkImageFile 0 0 ⟨"a_1.png", 1⟩] ∈
        splitByGaps (mkImageFiles 0 [⟨"a_1.png", 1⟩, ⟨"a_7.png", 1⟩]) 5 ∧
    List.Chain' (fun a b => frameKey b - frameKey a ≤ 5) [mkImageFile 0 0 ⟨"a_1.png", 1⟩] ∧
    (detectSequences cpLe 0 [⟨"a_1.png", 1⟩, ⟨"a_6.png", 1⟩]).length = 1 ∧
    (detectSequences cpLe 0 [⟨"a_1.png", 1⟩, ⟨"a_7.png", 1⟩]).length = 2 :=
  ⟨by decide,
   (splitByGaps_gap_threshold.1 (mkImageFiles 0 [⟨"a_1.png", 1⟩, ⟨"a_7.png", 1⟩]) 5).2.2.1
     _ (by decide),
   splitByGaps_gap_threshold.2.1, splitByGaps_gap_threshold.2.2⟩

/-- C5: `findMissingFrames` computes exactly the spec's missing-frame list
(the concatenation, over adjacent pairs of the ascending-sorted frame
numbers, of the open intervals between them); fewer than 2 frame numbers
give an empty list; every Sequence returned by `detectSequences` carries the
spec's missing-frame list of its own images' frame numbers; and the
`a_1/a_3/a_5` example yields `[2, 4]`. -/
theorem missingFrames_spec :
    (∀ frames : List Nat, findMissingFrames frames = specMissingFrames frames) ∧
    (∀ frames : List Nat, frames.length < 2 → findMissingFrames frames = []) ∧
    (∀ (lc : String → String → Bool) (now : Nat) (files : List FileObj),
      ∀ seq ∈ detectSequences lc now files,
        seq.missingFrames = specMissingFrames (seq.images.filterMap (·.frameNumber))) ∧
    (detectSequences cpLe 0 [⟨"a_1.png", 1⟩, ⟨"a_3.png", 1⟩, ⟨"a_5.png", 1⟩]).map
        (·.missingFrames) = [[2, 4]] := by
  refine ⟨findMissingFrames_eq_spec, ?_, ?_, by decide⟩
  · intro frames h
    rw [findMissingFrames, if_pos h]
  · intro lc now files seq hseq
    obtain ⟨g, hg, hpg⟩ := mem_detectSequences hseq
    rcases processGroup_mem_cases hpg with ⟨i, group, hmem, rfl⟩ | ⟨img, him, rfl⟩
    · show findMissingFrames (group.filterMap (·.frameNumber)) =
        specMissingFrames ((sortImages group).filterMap (·.frameNumber))
      rw [findMissingFrames_eq_spec]
      exact specMissingFrames_perm
        (((List.perm_insertionSort imgByFrame group).filterMap (·.frameNumber)).symm)
    · show ([] : List Nat) = specMissingFrames ([img].filterMap (·.frameNumber))
      refine (specMissingFrames_short ?_).symm
      cases h : img.frameNumber with
      | none => simp [List.filterMap_cons, h]
      | some n => simp [List.filterMap_cons, h]

/-- Witness for C5: a concrete single image in a detected batch carries the
spec's (empty) missing list, and the equality of code and spec lists holds at
`[1, 3, 5]`. -/
theorem missingFrames_spec_witness :
    singleFromImage (mkImageFile 0 0 ⟨"b.png", 1⟩) ∈ detectSequences cpLe 0 [⟨"b.png", 1⟩] ∧
    (singleFromImage (mkImageFile 0 0 ⟨"b.png", 1⟩)).missingFrames =
      specMissingFrames
        ((singleFromImage (mkImageFile 0 0 ⟨"b.png", 1⟩)).images.filterMap (·.frameNumber)) ∧
    findMissingFrames [1, 3, 5] = specMissingFrames [1, 3, 5] :=
  ⟨by decide,
   missingFrames_spec.2.2.1 cpLe 0 [⟨"b.png", 1⟩] _ (by decide),
   missingFrames_spec.1 [1, 3, 5]⟩

/-- Counterexample to C1 as stated: on the batch `a_1.png`, `a_20.png`
(same base name, frame gap 19), `detectSequences` returns two Sequences that
each contain a single image and still have `isSequence = true`, because the
`isSequence` flag is decided for the whole bucket before gap-splitting. -/
theorem isSequence_counterexample :
    ¬ (∀ seq ∈ detectSequences cpLe 0 [⟨"a_1.png", 1⟩, ⟨"a_20.png", 1⟩],
        seq.isSequence = true → 2 ≤ seq.images.length) ∧
    (detectSequences cpLe 0 [⟨"a_1.png", 1⟩, ⟨"a_20.png", 1⟩]).map
      (fun s => (s.isSequence, s.images.length)) = [(true, 1), (true, 1)] := by
  exact ⟨by decide, by decide⟩

/-- C1 (amended): every returned Sequence with `isSequence = false` contains
exactly one image, and every returned Sequence is nonempty; but a Sequence
with `isSequence = true` may contain a single image (when gap-splitting
isolates one frame), so fewer than 2 images does not force
`isSequence = false`. -/
theorem isSequence_false_singleton :
    ∀ (lc : String → String → Bool) (now : Nat) (files : List FileObj),
      ∀ seq ∈ detectSequences lc now files,
        (seq.isSequence = false → seq.images.length = 1) ∧ seq.images ≠ [] := by
  intro lc now files seq hseq
  obtain ⟨g, hg, hpg⟩ := mem_detectSequences hseq
  rcases processGroup_mem_cases hpg with ⟨i, group, hmem, rfl⟩ | ⟨img, him, rfl⟩
  · constructor
    · intro hfalse
      exact absurd hfalse (by simp [seqFromGroup])
    · show sortImages group ≠ []
      have hgrp : group ∈ splitByGaps g.2 := snd_mem_of_mem_enum hmem
      have hne := splitByGaps_ne_nil g.2 5 group hgrp
      intro hnil
      have hlen := List.length_insertionSort imgByFrame group
      rw [show group.insertionSort imgByFrame = sortImages group from rfl, hnil] at hlen
      exact hne (List.length_eq_zero.1 hlen.symm)
  · exact ⟨fun _ => rfl, by simp [singleFromImage]⟩

/-- Witness for the amended C1 at a concrete singleton batch. -/
theorem isSequence_false_singleton_witness :
    ((singleFromImage (mkImageFile 0 0 ⟨"b.png", 1⟩)).isSequence = false →
      (singleFromImage (mkImageFile 0 0 ⟨"b.png", 1⟩)).images.length = 1) ∧
    (singleFromImage (mkImageFile 0 0 ⟨"b.png", 1⟩)).images ≠ [] :=
  isSequence_false_singleton cpLe 0 [⟨"b.png", 1⟩] _ (by decide)

/-- Counterexample to C3 as stated: for the batch `Shot_01.png`,
`Shot_02.png` the parsed base name of every member is `"Shot"`, yet the
stored base name of the returned sequence is the lower-cased grouping key
`"shot"` — the sequence branch of `detectSequences` stores the lower-cased
key, not the original-case base name. -/
theorem storedBaseName_counterexample :
    (detectSequences cpLe 0 [⟨"Shot_01.png", 1⟩, ⟨"Shot_02.png", 1⟩]).map (·.baseName) =
      ["shot"] ∧
    (mkImageFiles 0 [⟨"Shot_01.png", 1⟩, ⟨"Shot_02.png", 1⟩]).map (·.baseName) =
      ["Shot", "Shot"] ∧
    ("shot" : String) ≠ "Shot" := by
  exact ⟨by decide, by decide, by decide⟩

theorem addToGroups_key_inv (gs : List (String × List ImageFile)) (img : ImageFile)
    (h : ∀ p ∈ gs, ∀ x ∈ p.2, jsToLower x.baseName = p.1) :
    ∀ p ∈ addToGroups gs img, ∀ x ∈ p.2, jsToLower x.baseName = p.1 := by
  induction gs with
  | nil =>
    intro p hp x hx
    simp only [addToGroups, List.mem_singleton] at hp
    subst hp
    simp only [List.mem_singleton] at hx
    subst hx
    rfl
  | cons g gs' ih =>
    intro p hp x hx
    unfold addToGroups at hp
    by_cases hk : g.1 = jsToLower img.baseName
    · rw [if_pos hk] at hp
      rcases List.mem_cons.1 hp with rfl | hp'
      · rcases List.mem_append.1 hx with hx' | hx'
        · exact h g (by simp) x hx'
        · simp only [List.mem_singleton] at hx'
          subst hx'
          exact hk.symm
      · exact h p (by simp [hp']) x hx
    · rw [if_neg hk] at hp
      rcases List.mem_cons.1 hp with rfl | hp'
      · exact h p (by simp) x hx
      · exact ih (fun q hq => h q (by simp [hq])) p hp' x hx

theorem groupsOf_key_inv (imgs : List ImageFile) :
    ∀ p ∈ groupsOf imgs, ∀ x ∈ p.2, jsToLower x.baseName = p.1 := by
  have main : ∀ (l : List ImageFile) (gs0 : List (String × List ImageFile)),
      (∀ p ∈ gs0, ∀ x ∈ p.2, jsToLower x.baseName = p.1) →
      ∀ p ∈ l.foldl addToGroups gs0, ∀ x ∈ p.2, jsToLower x.baseName = p.1 := by
    intro l
    induction l with
    | nil => intro gs0 h; simpa using h
    | cons i is ih =>
      intro gs0 h
      exact ih _ (addToGroups_key_inv gs0 i h)
  exact main imgs [] (by simp)

/-- C3 (amended): the stored base name preserves the original character case
only for singleton (`isSequence = false`) Sequences, where it equals the
member's parsed base name; for detected sequences (`isSequence = true`) the
stored base name is the lower-cased grouping key shared by all members,
possibly suffixed with `" (Part N)"`. -/
theorem storedBaseName_case_rule :
    ∀ (lc : String → String → Bool) (now : Nat) (files : List FileObj),
      ∀ seq ∈ detectSequences lc now files,
        (seq.isSequence = false → ∃ img, seq.images = [img] ∧ seq.baseName = img.baseName) ∧
        (seq.isSequence = true → ∃ key,
          (∀ img ∈ seq.images, jsToLower img.baseName = key) ∧
          (seq.baseName = key ∨
            ∃ n : Nat, seq.baseName = key ++ " (Part " ++ toString n ++ ")")) := by
  intro lc now files seq hseq
  obtain ⟨g, hg, hpg⟩ := mem_detectSequences hseq
  rcases processGroup_mem_cases hpg with ⟨i, group, hmem, rfl⟩ | ⟨img, him, rfl⟩
  · constructor
    · intro h
      exact absurd h (by simp [seqFromGroup])
    · intro _
      refine ⟨g.1, ?_, ?_⟩
      · intro img himg
        have h0 : img ∈ sortImages group := by simpa [seqFromGroup] using himg
        have h1 : img ∈ group := (List.mem_insertionSort _).1 h0
        have h2 : img ∈ g.2 := mem_of_mem_splitByGaps (snd_mem_of_mem_enum hmem) h1
        exact groupsOf_key_inv _ g hg img h2
      · simp only [seqFromGroup]
        by_cases hl : 1 < (splitByGaps g.2).length
        · exact Or.inr ⟨i + 1, by rw [if_pos hl]⟩
        · exact Or.inl (by rw [if_neg hl])
  · constructor
    · intro _
      exact ⟨img, rfl, rfl⟩
    · intro h
      exact absurd h (by simp [singleFromImage])

/-- Witness for the amended C3: a singleton batch with an upper-case name
keeps its original-case base name. -/
theorem storedBaseName_case_rule_witness :
    ((singleFromImage (mkImageFile 0 0 ⟨"Photo.png", 1⟩)).isSequence = false →
      ∃ img, (singleFromImage (mkImageFile 0 0 ⟨"Photo.png", 1⟩)).images = [img] ∧
        (singleFromImage (mkImageFile 0 0 ⟨"Photo.png", 1⟩)).baseName = img.baseName) ∧
    ((singleFromImage (mkImageFile 0 0 ⟨"Photo.png", 1⟩)).isSequence = true → ∃ key,
      (∀ img ∈ (singleFromImage (mkImageFile 0 0 ⟨"Photo.png", 1⟩)).images,
        jsToLower img.baseName = key) ∧
      ((singleFromImage (mkImageFile 0 0 ⟨"Photo.png", 1⟩)).baseName = key ∨
        ∃ n : Nat, (singleFromImage (mkImageFile 0 0 ⟨"Photo.png", 1⟩)).baseName =
          key ++ " (Part " ++ toString n ++ ")")) :=
  storedBaseName_case_rule cpLe 0 [⟨"Photo.png", 1⟩] _ (by decide)

theorem seqLe_imp {lc : String → String → Bool} {a b : ImageSequence} (h : seqLe lc a b) :
    (b.isSequence = true → a.isSequence = true) ∧
    (a.isSequence = b.isSequence → lc a.baseName b.baseName = true) := by
  cases ha : a.isSequence <;> cases hb : b.isSequence <;>
    simp_all [seqLe]

/-- C7: for any locale collation `lc` (a total, transitive boolean `≤` on
strings, abstracting `localeCompare(..) <= 0`), the list returned by
`detectSequences` is ordered with every `isSequence = true` entry before
every `isSequence = false` entry, and entries of the same class appear in
ascending `lc` order of their display base names. -/
theorem detect_output_order :
    ∀ (lc : String → String → Bool) (now : Nat) (files : List FileObj),
      (∀ a b, lc a b = true ∨ lc b a = true) →
      (∀ a b c, lc a b = true → lc b c = true → lc a c = true) →
      List.Pairwise
        (fun a b => (b.isSequence = true → a.isSequence = true) ∧
          (a.isSequence = b.isSequence → lc a.baseName b.baseName = true))
        (detectSequences lc now files) := by
  intro lc now files htotal htrans
  haveI inst1 : IsTotal ImageSequence (seqLe lc) := by
    constructor
    intro a b
    cases ha : a.isSequence <;> cases hb : b.isSequence <;>
      simp_all [seqLe]
  haveI inst2 : IsTrans ImageSequence (seqLe lc) := by
    constructor
    intro a b c hab hbc
    cases ha : a.isSequence <;> cases hb : b.isSequence <;> cases hc : c.isSequence <;>
      simp_all [seqLe] <;> exact htrans _ _ _ hab hbc
  have hsorted : List.Sorted (seqLe lc) (detectSequences lc now files) :=
    List.sorted_insertionSort _ _
  exact hsorted.imp fun h => seqLe_imp h

/-- Witness for C7 at the length collation and a concrete mixed batch. -/
theorem detect_output_order_witness :
    List.Pairwise
      (fun a b => (b.isSequence = true → a.isSequence = true) ∧
        (a.isSequence = b.isSequence → lenLe a.baseName b.baseName = true))
      (detectSequences lenLe 0 [⟨"a_1.png", 1⟩, ⟨"a_2.png", 1⟩, ⟨"b.png", 2⟩]) :=
  detect_output_order lenLe 0 [⟨"a_1.png", 1⟩, ⟨"a_2.png", 1⟩, ⟨"b.png", 2⟩]
    (fun a b => by simpa [lenLe] using Nat.le_total a.data.length b.data.length)
    (fun a b c hab hbc => by
      simp only [lenLe, decide_eq_true_eq] at hab hbc ⊢
      omega)

theorem addToGroups_values (gs : List (String × List ImageFile)) (img : ImageFile) :
    ((addToGroups gs img).map (·.2)).flatten.Perm ((gs.map (·.2)).flatten ++ [img]) := by
  induction gs with
  | nil => simp [addToGroups]
  | cons g gs' ih =>
    unfold addToGroups
    by_cases hk : g.1 = jsToLower img.baseName
    · rw [if_pos hk]
      simp only [List.map_cons, List.flatten_cons]
      calc (g.2 ++ [img]) ++ (gs'.map (·.2)).flatten
          = g.2 ++ ([img] ++ (gs'.map (·.2)).flatten) := by rw [List.append_assoc]
        _ ~ g.2 ++ ((gs'.map (·.2)).flatten ++ [img]) :=
            List.Perm.append_left _ (List.perm_append_comm)
        _ = (g.2 ++ (gs'.map (·.2)).flatten) ++ [img] := by rw [List.append_assoc]
    · rw [if_neg hk]
      simp only [List.map_cons, List.flatten_cons]
      calc g.2 ++ ((addToGroups gs' img).map (·.2)).flatten
          ~ g.2 ++ ((gs'.map (·.2)).flatten ++ [img]) := List.Perm.append_left _ ih
        _ = (g.2 ++ (gs'.map (·.2)).flatten) ++ [img] := by rw [List.append_assoc]

theorem groupsOf_values (imgs : List ImageFile) :
    ((groupsOf imgs).map (·.2)).flatten.Perm imgs := by
  have main : ∀ (l : List ImageFile) (gs0 : List (String × List ImageFile)),
      ((l.foldl addToGroups gs0).map (·.2)).flatten.Perm ((gs0.map (·.2)).flatten ++ l) := by
    intro l
    induction l with
    | nil => intro gs0; simp
    | cons i is ih =>
      intro gs0
      calc ((is.foldl addToGroups (addToGroups gs0 i)).map (·.2)).flatten
          ~ ((addToGroups gs0 i).map (·.2)).flatten ++ is := ih (addToGroups gs0 i)
        _ ~ ((gs0.map (·.2)).flatten ++ [i]) ++ is :=
            (addToGroups_values gs0 i).append_right is
        _ = (gs0.map (·.2)).flatten ++ i :: is := by simp
  simpa using main imgs []

theorem processGroup_images_perm (now : Nat) (k : String) (imgs : List ImageFile) :
    (flatImages (processGroup now k imgs)).Perm imgs := by
  unfold processGroup flatImages
  by_cases hc : (imgs.any (fun img => img.frameNumber.isSome) && decide (1 < imgs.length)) = true
  · rw [if_pos hc]
    calc ((splitByGaps imgs).enum.map fun p =>
            seqFromGroup now k (splitByGaps imgs).length p.1 p.2).flatMap (·.images)
        = (splitByGaps imgs).enum.flatMap fun p => sortImages p.2 := by
          rw [List.flatMap_map]
          rfl
      _ ~ (splitByGaps imgs).enum.flatMap fun p => p.2 :=
          List.Perm.flatMap_left _ fun p _ => List.perm_insertionSort imgByFrame p.2
      _ = ((splitByGaps imgs).enum.map Prod.snd).flatten := by rw [List.flatMap_def]
      _ = (splitByGaps imgs).flatten := by
          rw [List.enum_eq_enumFrom, List.enumFrom_map_snd]
      _ = sortImages imgs := splitByGaps_flatten imgs 5
      _ ~ imgs := List.perm_insertionSort imgByFrame imgs
  · rw [if_neg hc]
    have heq : ((imgs.map singleFromImage).flatMap fun s => s.images) = imgs := by
      rw [List.flatMap_map]
      exact List.flatMap_singleton' imgs
    rw [heq]

/-- C10: `detectSequences` partitions its input — the images of all returned
Sequences taken together are a permutation of the per-file image records
built from the input, so every input file appears in exactly one Sequence
exactly once, and the total image count equals the number of input files. -/
theorem detect_partition :
    ∀ (lc : String → String → Bool) (now : Nat) (files : List FileObj),
      (flatImages (detectSequences lc now files)).Perm (mkImageFiles now files) ∧
      (flatImages (detectSequences lc now files)).length = files.length := by
  intro lc now files
  have hperm : (flatImages (detectSequences lc now files)).Perm (mkImageFiles now files) := by
    unfold detectSequences flatImages
    calc (((groupsOf (mkImageFiles now files)).flatMap fun g =>
            processGroup now g.1 g.2).insertionSort (seqLe lc)).flatMap (·.images)
        ~ ((groupsOf (mkImageFiles now files)).flatMap fun g =>
            processGroup now g.1 g.2).flatMap (·.images) :=
          (List.perm_insertionSort _ _).flatMap_right _
      _ = (groupsOf (mkImageFiles now files)).flatMap fun g =>
            (processGroup now g.1 g.2).flatMap (·.images) := List.flatMap_assoc ..
      _ ~ (groupsOf (mkImageFiles now files)).flatMap fun g => g.2 :=
          List.Perm.flatMap_left _ fun g _ => processGroup_images_perm now g.1 g.2
      _ = ((groupsOf (mkImageFiles now files)).map (·.2)).flatten := by rw [List.flatMap_def]
      _ ~ mkImageFiles now files := groupsOf_values (mkImageFiles now files)
  refine ⟨hperm, ?_⟩
  rw [hperm.length_eq]
  simp [mkImageFiles, List.enum_eq_enumFrom]

theorem updConverting_id (tid : String) (x : ImageFile) :
    (updConverting tid x).id = x.id := by
  unfold updConverting
  split <;> rfl

theorem updDone_id (tid : String) (b : Blob) (x : ImageFile) :
    (updDone tid b x).id = x.id := by
  unfold updDone
  split <;> rfl

theorem updError_id (tid msg : String) (x : ImageFile) :
    (updError tid msg x).id = x.id := by
  unfold updError
  split <;> rfl

theorem updConverting_other {tid : String} {x : ImageFile} (h : x.id ≠ tid) :
    updConverting tid x = x := by
  unfold updConverting
  rw [if_neg h]

theorem updDone_other {tid : String} (b : Blob) {x : ImageFile} (h : x.id ≠ tid) :
    updDone tid b x = x := by
  unfold updDone
  rw [if_neg h]

theorem updError_other {tid : String} (msg : String) {x : ImageFile} (h : x.id ≠ tid) :
    updError tid msg x = x := by
  unfold updError
  rw [if_neg h]

theorem updDone_self (img : ImageFile) (b : Blob) :
    updDone img.id b (updConverting img.id img) =
      { img with status := .done, convertedBlob := some b, convertedSize := some b.size } := by
  obtain ⟨i, f, n, bn, fn, os, cs, cb, st, er⟩ := img
  simp [updConverting, updDone]

theorem updError_self (img : ImageFile) (msg : String) :
    updError img.id msg (updConverting img.id img) =
      { img with status := .error, error := some msg } := by
  obtain ⟨i, f, n, bn, fn, os, cs, cb, st, er⟩ := img
  simp [updConverting, updError]

theorem flatImages_mapState (f : ImageFile → ImageFile) (st : List ImageSequence) :
    flatImages (mapState f st) = (flatImages st).map f := by
  unfold flatImages mapState
  rw [List.flatMap_map]
  exact (List.map_flatMap f (·.images) st).symm

theorem flatImages_append (a b : List ImageSequence) :
    flatImages (a ++ b) = flatImages a ++ flatImages b :=
  List.flatMap_append a b _

theorem find?_map_id_pres {l : List ImageFile} {f : ImageFile → ImageFile} {tid : String}
    (hid : ∀ x, (f x).id = x.id) :
    (l.map f).find? (fun i => i.id = tid) = (l.find? (fun i => i.id = tid)).map f := by
  induction l with
  | nil => rfl
  | cons x xs ih =>
    simp only [List.map_cons, List.find?_cons, hid]
    by_cases h : x.id = tid
    · simp [h]
    · simp [h, ih]

theorem findImage_mapState {f : ImageFile → ImageFile} (hid : ∀ x, (f x).id = x.id)
    (tid : String) (st : List ImageSequence) :
    findImage tid (mapState f st) = (findImage tid st).map f := by
  unfold findImage
  rw [flatImages_mapState]
  exact find?_map_id_pres hid

theorem findImage_processImage_other (conv : ImageFile → Except String Blob)
    (st : List ImageSequence) {other : ImageFile} {tid : String} (hne : other.id ≠ tid) :
    findImage tid (processImage conv st other) = findImage tid st := by
  unfold processImage
  have hskip : ∀ (r : ImageFile), r.id = tid → ∀ g : ImageFile → ImageFile,
      (∀ x, x.id ≠ other.id → g x = x) → g r = r := by
    intro r hr g hg
    exact hg r (by rw [hr]; exact fun e => hne e.symm)
  cases hc : conv other with
  | ok b =>
    rw [findImage_mapState (updDone_id other.id b), findImage_mapState (updConverting_id other.id)]
    cases hf : findImage tid st with
    | none => rfl
    | some r =>
      have hr : r.id = tid := by
        unfold findImage at hf
        have h2 := List.find?_some hf
        simpa using h2
      have hrne : r.id ≠ other.id := by
        rw [hr]
        exact fun e => hne e.symm
      simp only [Option.map_some']
      rw [updConverting_other hrne, updDone_other b hrne]
  | error m =>
    rw [findImage_mapState (updError_id other.id m), findImage_mapState (updConverting_id other.id)]
    cases hf : findImage tid st with
    | none => rfl
    | some r =>
      have hr : r.id = tid := by
        unfold findImage at hf
        have h2 := List.find?_some hf
        simpa using h2
      have hrne : r.id ≠ other.id := by
        rw [hr]
        exact fun e => hne e.symm
      simp only [Option.map_some']
      rw [updConverting_other hrne, updError_other m hrne]

theorem findImage_processImage_self (conv : ImageFile → Except String Blob)
    (st : List ImageSequence) {img : ImageFile} (hf : findImage img.id st = some img) :
    findImage img.id (processImage conv st img) =
      some (match conv img with
        | .ok b =>
          { img with status := .done, convertedBlob := some b, convertedSize := some b.size }
        | .error m => { img with status := .error, error := some m }) := by
  unfold processImage
  cases hc : conv img with
  | ok b =>
    rw [findImage_mapState (updDone_id img.id b), findImage_mapState (updConverting_id img.id),
      hf]
    simp only [Option.map_some']
    rw [updDone_self]
  | error m =>
    rw [findImage_mapState (updError_id img.id m), findImage_mapState (updConverting_id img.id),
      hf]
    simp only [Option.map_some']
    rw [updError_self]

theorem findImage_foldl_other (conv : ImageFile → Except String Blob) (todo : List ImageFile)
    {tid : String} (h : ∀ x ∈ todo, x.id ≠ tid) :
    ∀ st : List ImageSequence,
      findImage tid (todo.foldl (processImage conv) st) = findImage tid st := by
  induction todo with
  | nil => intro st; rfl
  | cons x xs ih =>
    intro st
    rw [List.foldl_cons, ih fun y hy => h y (by simp [hy]),
      findImage_processImage_other conv st (h x (by simp))]

theorem mem_of_mem_groupsOf {imgs : List ImageFile} {p : String × List ImageFile}
    (hp : p ∈ groupsOf imgs) {x : ImageFile} (hx : x ∈ p.2) : x ∈ imgs := by
  have hmem : x ∈ ((groupsOf imgs).map (·.2)).flatten :=
    List.mem_flatten.2 ⟨p.2, List.mem_map_of_mem (·.2) hp, hx⟩
  exact (groupsOf_values imgs).mem_iff.1 hmem

theorem detect_images_fresh {lc : String → String → Bool} {now : Nat} {files : List FileObj}
    {img : ImageFile} (h : img ∈ flatImages (detectSequences lc now files)) :
    img.status = .pending ∧ img.convertedBlob = none := by
  obtain ⟨seq, hseq, himg⟩ := List.mem_flatMap.1 h
  obtain ⟨g, hg, hpg⟩ := mem_detectSequences hseq
  have himgs : img ∈ mkImageFiles now files := by
    rcases processGroup_mem_cases hpg with ⟨i, group, hmem, rfl⟩ | ⟨x, hx, rfl⟩
    · have h0 : img ∈ sortImages group := by simpa [seqFromGroup] using himg
      have h1 : img ∈ group := (List.mem_insertionSort _).1 h0
      exact mem_of_mem_groupsOf hg (mem_of_mem_splitByGaps (snd_mem_of_mem_enum hmem) h1)
    · have h0 : img = x := by simpa [singleFromImage] using himg
      exact h0 ▸ mem_of_mem_groupsOf hg hx
  obtain ⟨pr, _, rfl⟩ := List.mem_map.1 himgs
  exact ⟨rfl, rfl⟩

theorem find?_first {l1 l2 : List ImageFile} {img : ImageFile}
    (h : ∀ x ∈ l1, x.id ≠ img.id) :
    (l1 ++ img :: l2).find? (fun i => i.id = img.id) = some img := by
  induction l1 with
  | nil => exact List.find?_cons_of_pos _ (by simp)
  | cons x xs ih =>
    rw [List.cons_append, List.find?_cons_of_neg _ (by simpa using h x (by simp))]
    exact ih fun y hy => h y (by simp [hy])

/-- C9: in the conversion loop of `addFiles`, the final record of each image
of the batch depends only on that image's own conversion outcome: a
successful conversion ends in status `done` with the blob and its size
recorded, and a failed conversion ends in status `error` with the caught
message recorded and still no output blob — whatever the conversion oracle
does on every sibling image.  In particular one image's failure never aborts
or alters the processing of the others, and every image of the batch reaches
a terminal `done`-or-`error` status.  (`huniq` states that image ids are
unique across the resulting state, which `detectSequences` provides via the
per-file index in the id.) -/
theorem addFiles_error_isolation :
    ∀ (conv : ImageFile → Except String Blob) (lc : String → String → Bool) (now : Nat)
      (prev : List ImageSequence) (files : List FileObj) (img : ImageFile),
      img ∈ flatImages (detectSequences lc now files) →
      (flatImages (prev ++ detectSequences lc now files)).Pairwise (fun a b => a.id ≠ b.id) →
      img.status = .pending ∧ img.convertedBlob = none ∧
      (∀ b, conv img = .ok b →
        findImage img.id (addFilesModel conv lc now prev files) =
          some { img with status := .done, convertedBlob := some b, convertedSize := some b.size }) ∧
      (∀ msg, conv img = .error msg →
        findImage img.id (addFilesModel conv lc now prev files) =
          some { img with status := .error, error := some msg }) := by
  intro conv lc now prev files img him huniq
  obtain ⟨hpend, hblob⟩ := detect_images_fresh him
  obtain ⟨l1, l2, hsplit⟩ := List.append_of_mem him
  have hflat : flatImages (prev ++ detectSequences lc now files) =
      flatImages prev ++ (l1 ++ img :: l2) := by
    rw [flatImages_append, hsplit]
  rw [hflat] at huniq
  obtain ⟨hprevpair, hrest, hcross⟩ := List.pairwise_append.1 huniq
  obtain ⟨hl1pair, hl2pair, hcross2⟩ := List.pairwise_append.1 hrest
  have himgpair := List.pairwise_cons.1 hl2pair
  have hl1ne : ∀ x ∈ l1, x.id ≠ img.id := fun x hx => hcross2 x hx img (by simp)
  have hl2ne : ∀ x ∈ l2, x.id ≠ img.id := fun x hx => fun e => himgpair.1 x hx e.symm
  have hprevne : ∀ x ∈ flatImages prev, x.id ≠ img.id := fun x hx =>
    hcross x hx img (by simp)
  have hst0 : findImage img.id (prev ++ detectSequences lc now files) = some img := by
    unfold findImage
    rw [hflat, show flatImages prev ++ (l1 ++ img :: l2) =
      (flatImages prev ++ l1) ++ img :: l2 by rw [List.append_assoc]]
    refine find?_first fun x hx => ?_
    rcases List.mem_append.1 hx with h1 | h1
    · exact hprevne x h1
    · exact hl1ne x h1
  have hst1 : findImage img.id
      (l1.foldl (processImage conv) (prev ++ detectSequences lc now files)) = some img := by
    rw [findImage_foldl_other conv l1 hl1ne]
    exact hst0
  have hkey : findImage img.id (addFilesModel conv lc now prev files) =
      some (match conv img with
        | .ok b =>
          { img with status := .done, convertedBlob := some b, convertedSize := some b.size }
        | .error m => { img with status := .error, error := some m }) := by
    show findImage img.id
        (processBatch conv (detectSequences lc now files)
          (prev ++ detectSequences lc now files)) = _
    unfold processBatch
    rw [show (detectSequences lc now files).flatMap (·.images) = l1 ++ img :: l2 from hsplit,
      List.foldl_append, List.foldl_cons]
    rw [findImage_foldl_other conv l2 hl2ne]
    exact findImage_processImage_self conv _ hst1
  refine ⟨hpend, hblob, ?_, ?_⟩
  · intro b hb
    rw [hkey, hb]
  · intro m hm
    rw [hkey, hm]

/-- Witness for C9: a two-file batch where `bad.png` fails to convert while
`good.png` succeeds. -/
theorem addFiles_error_isolation_witness :
    (mkImageFile 0 1 ⟨"bad.png", 1⟩).status = .pending ∧
    (mkImageFile 0 1 ⟨"bad.png", 1⟩).convertedBlob = none ∧
    (∀ b, convOracle (mkImageFile 0 1 ⟨"bad.png", 1⟩) = .ok b →
      findImage (mkImageFile 0 1 ⟨"bad.png", 1⟩).id
          (addFilesModel convOracle cpLe 0 [] [⟨"good.png", 1⟩, ⟨"bad.png", 1⟩]) =
        some { mkImageFile 0 1 ⟨"bad.png", 1⟩ with status := .done, convertedBlob := some b, convertedSize := some b.size }) ∧
    (∀ msg, convOracle (mkImageFile 0 1 ⟨"bad.png", 1⟩) = .error msg →
      findImage (mkImageFile 0 1 ⟨"bad.png", 1⟩).id
          (addFilesModel convOracle cpLe 0 [] [⟨"good.png", 1⟩, ⟨"bad.png", 1⟩]) =
        some { mkImageFile 0 1 ⟨"bad.png", 1⟩ with status := .error, error := some msg }) :=
  addFiles_error_isolation convOracle cpLe 0 [] [⟨"good.png", 1⟩, ⟨"bad.png", 1⟩]
    (mkImageFile 0 1 ⟨"bad.png", 1⟩) (by decide) (by decide)

end WebpSpec
